import Mathlib

/-!
Verification of the `RooIgnoreController` access-control engine
(`src/core/ignore/RooIgnoreController.ts`).

The controller decides, for a workspace root `cwd`, which filesystem paths an
automated agent may touch, driven by a hierarchy of `.kilocodeignore` files.
We shallowly embed the controller:

* POSIX path strings are Lean `String`s; `path.resolve`, `path.relative`,
  `path.dirname` and friends are modelled as executable functions on the
  segment decomposition of those strings.
* The external gitignore matcher (the `ignore` npm package) is kept abstract:
  a parameter `m : GlobSemantics` gives the glob-matching semantics, while the
  package's documented path validation (it throws a `RangeError` on paths that
  are empty, absolute, or match `/^\.*\/|^\.+$/`) is modelled concretely by
  `ignoresE`, since the engine's fail-open behaviour depends on it.
* File-system effects are an explicit record `FS`; an unexpected exception
  raised during a hierarchy load (the `catch` at the bottom of
  `loadRooIgnore`) is modelled by the oracle field `FS.unexpected`.
* `console.warn` / `console.error` output is collected in a `List LogMsg`.
-/

namespace RooIgnore

/-! ## Character-level string primitives (JS string methods) -/

/-- JS `String.prototype.startsWith`, at the character-list level. -/
def charsStartWith : List Char → List Char → Bool
  | _, [] => true
  | [], _ :: _ => false
  | c :: cs, p :: ps => c = p && charsStartWith cs ps

/-- JS `s.startsWith(p)`. -/
def strStartsWith (s p : String) : Bool :=
  charsStartWith s.data p.data

/-- JS `s.includes(c)` for a single character `c`. -/
def strContainsChar (s : String) (c : Char) : Bool :=
  s.data.contains c

/-- JS `String.prototype.trim` on a character list (ASCII whitespace). -/
def trimChars (l : List Char) : List Char :=
  ((l.dropWhile Char.isWhitespace).reverse.dropWhile Char.isWhitespace).reverse

/-- JS `s.trim()`. -/
def jsTrim (s : String) : String :=
  ⟨trimChars s.data⟩

/-- JS `s.toLowerCase()` (ASCII). -/
def jsToLower (s : String) : String :=
  ⟨s.data.map Char.toLower⟩

/-- JS `command.trim().split(/\s+/)`: splitting the empty string yields
`[""]`, otherwise the whitespace-separated tokens of the trimmed string. -/
def splitWS (s : String) : List String :=
  let t := trimChars s.data
  if t = [] then [""]
  else ((t.splitOnP Char.isWhitespace).map (fun cs => (⟨cs⟩ : String))).filter
    (fun x => x ≠ "")

/-- Modelled from the spec: `String.prototype.toPosix` (declared in
`src/utils/path`, which is not part of the sources) normalizes Windows path
separators, replacing every backslash by a forward slash. -/
def toPosix (s : String) : String :=
  ⟨s.data.map (fun c => if c = '\\' then '/' else c)⟩

/-! ## POSIX path model (`node:path`) -/

/-- Split a path string into its non-empty `/`-separated segments. -/
def segsOf (s : String) : List String :=
  ((s.data.splitOn '/').map (fun cs => (⟨cs⟩ : String))).filter (fun x => x ≠ "")

/-- One step of absolute-path normalization: `.` is dropped, `..` pops the
last segment (a no-op at the root), anything else is appended. -/
def normStep (acc : List String) (seg : String) : List String :=
  if seg = "." then acc
  else if seg = ".." then acc.dropLast
  else acc ++ [seg]

/-- Resolve `.` and `..` segments of an absolute path (as `path.resolve`
normalization does: a `..` at the root is dropped). -/
def normSegs (segs : List String) : List String :=
  segs.foldl normStep []

/-- Join relative path segments with `/` (no leading slash). -/
def joinRel : List String → String
  | [] => ""
  | [s] => s
  | s :: rest => s ++ "/" ++ joinRel rest

/-- Render an absolute path from its segments (`[]` is the root `/`). -/
def absString (segs : List String) : String :=
  "/" ++ joinRel segs

/-- `path.resolve(cwd, fp)` at the segment level, for an absolute `cwd`. -/
def resolveSegs (cwd fp : String) : List String :=
  if strStartsWith fp "/" then normSegs (segsOf fp)
  else normSegs (segsOf cwd ++ segsOf fp)

/-- `path.resolve(cwd, fp)` for an absolute `cwd`. -/
def resolvePath (cwd fp : String) : String :=
  absString (resolveSegs cwd fp)

/-- Drop the longest common leading run of two segment lists. -/
def stripCommon : List String → List String → List String × List String
  | a :: as, b :: bs =>
    if a = b then stripCommon as bs else (a :: as, b :: bs)
  | as, bs => (as, bs)

/-- `path.relative` at the segment level: climb out of what remains of `from`,
then descend into what remains of `to`. -/
def relativeSegs (f t : List String) : List String :=
  let p := stripCommon f t
  p.1.map (fun _ => "..") ++ p.2

/-- `path.relative(from, to)` for absolute `from`/`to` (both are resolved
before comparison, as `node:path` does). -/
def relativePath (f t : String) : String :=
  joinRel (relativeSegs (normSegs (segsOf f)) (normSegs (segsOf t)))

/-! ## The external `ignore` matcher -/

/-- The glob-matching semantics of the external `ignore` package, abstracted:
given the list of pattern lines fed to the instance (in `add` order) and a
workspace-relative POSIX path, decide whether the path is ignored.  The
gitignore pattern language itself is out of scope (external collaborator). -/
abbrev GlobSemantics := List String → String → Bool

/-- The `ignore` package's `REGEX_TEST_INVALID_PATH = /^\.*\/|^\.+$/`:
paths beginning with dots-then-slash (which covers `/foo`, `./foo`, `../foo`)
and paths consisting solely of dots are rejected by `Ignore#ignores`. -/
def testInvalidPath (s : String) : Bool :=
  let ds := s.data.dropWhile (fun c => c = '.')
  ds.headD 'a' == '/' || (!s.data.isEmpty && ds.isEmpty)

/-- `Ignore#ignores(p)` of the external package: throws (modelled as
`Except.error`) on an empty or non-relative path, otherwise consults the
glob semantics on the pattern lines added so far. -/
def ignoresE (m : GlobSemantics) (pats : List String) (p : String) :
    Except String Bool :=
  if p = "" then Except.error "path must not be empty"
  else if testInvalidPath p then
    Except.error "path should be a relative path"
  else Except.ok (m pats p)

/-- `Ignore#add(text)`: the package splits the added text on line breaks and
appends each line as one pattern. -/
def addPatterns (pats : List String) (text : String) : List String :=
  pats ++ (text.data.splitOn '\n').map (fun cs => (⟨cs⟩ : String))

/-- The pattern lines of `text` on their own (a fresh instance after
`ignore().add(text)`). -/
def splitNL (text : String) : List String :=
  (text.data.splitOn '\n').map (fun cs => (⟨cs⟩ : String))

/-- Join the combined-content buffer with `"\n"` (`combinedContent.join("\n")`). -/
def joinNL : List String → String
  | [] => ""
  | [s] => s
  | s :: rest => s ++ "\n" ++ joinNL rest

/-! ## Engine state, file system, logs -/

/-- Diagnostics written to the console during a load. -/
inductive LogMsg where
  | warn (msg : String)
  | error (msg : String)
deriving DecidableEq

/-- The file-system interface used by the load sequence and the validator.
`access p = true` models a successful `fs.access`; `read` models
`fs.readFile(_, "utf8")` (`Except.error` is a rejected promise);
`realpath` models `fsSync.realpathSync` (`none` is a throw);
`unexpected` is an oracle: `some e` means an unexpected exception `e` is
raised during the load sequence outside the per-file read loop, landing in
the final `catch` of `loadRooIgnore`. -/
structure FS where
  access : String → Bool
  read : String → Except String String
  realpath : String → Option String
  unexpected : Option String

/-- The mutable fields of `RooIgnoreController` that validation reads:
the workspace root, the pattern lines held by the compiled `ignore` instance
(in `add` order), and `rooIgnoreContent` (`none` models `undefined`, the
"no restrictions" sentinel). -/
structure Controller where
  cwd : String
  patterns : List String
  rooIgnoreContent : Option String

/-- JS truthiness of `this.rooIgnoreContent`: `undefined` and `""` are falsy. -/
def contentFalsy : Option String → Bool
  | none => true
  | some s => s = ""

/-! ## Hierarchy discovery (`findKilocodeIgnoreFiles`) -/

/-- The candidate ignore-file path inside directory `dir` (given by its
segments): `path.join(currentPath, ".kilocodeignore")`. -/
def igPathOf (dir : List String) : String :=
  absString dir ++ "/.kilocodeignore"

/-- The upward walk of `findKilocodeIgnoreFiles`, structurally recursing on
the reversed segment list: moving to the parent directory
(`path.dirname`) peels the last segment, i.e. the head of the reversal.  The
loop stops when a directory equals its own parent, so the root `/` itself is
never probed. -/
def walkUpRev (fs : FS) : List String → List String
  | [] => []
  | s :: rest =>
    (if fs.access (igPathOf ((s :: rest).reverse)) then
      [igPathOf ((s :: rest).reverse)]
    else []) ++ walkUpRev fs rest

/-- `findKilocodeIgnoreFiles(targetPath)`: collect the existing ignore-files
from the target directory upward (leaf first), then reverse so the result is
ordered root first. -/
def findKilocodeIgnoreFiles (fs : FS) (targetPath : String) : List String :=
  (walkUpRev fs (normSegs (segsOf targetPath)).reverse).reverse

/-! ## Hierarchy load (`loadRooIgnore`) -/

/-- The provenance comment pushed before each file's content:
`# From: <path relative to the workspace root>`. -/
def fromComment (cwd f : String) : String :=
  "# From: " ++ relativePath cwd f

/-- The warning logged when one ignore-file cannot be read. -/
def readWarn (f e : String) : String :=
  "Warning: Could not read .kilocodeignore at " ++ f ++ ": " ++ e

/-- The per-file read loop of `loadRooIgnore`: accumulate the combined-content
buffer and the warnings, skipping unreadable files and files whose trimmed
content is empty. -/
def loadLoop (fs : FS) (cwd : String) :
    List String → List String → List LogMsg → List String × List LogMsg
  | [], acc, logs => (acc, logs)
  | f :: rest, acc, logs =>
    match fs.read f with
    | Except.ok content =>
      if jsTrim content ≠ "" then
        loadLoop fs cwd rest (acc ++ [fromComment cwd f, content]) logs
      else loadLoop fs cwd rest acc logs
    | Except.error e =>
      loadLoop fs cwd rest acc (logs ++ [LogMsg.warn (readWarn f e)])

/-- `loadRooIgnore()`: reset the ignore instance, discover the hierarchy,
read every file (continuing on individual failures), then either install the
combined content plus the synthetic `**/.kilocodeignore` self-hiding rule, or
fall back to the "no restrictions" sentinel.  An unexpected exception during
the sequence (the `FS.unexpected` oracle) lands in the final `catch`, which
logs an error, clears the content sentinel and replaces the instance with a
fresh empty one. -/
def loadRooIgnore (fs : FS) (c : Controller) : Controller × List LogMsg :=
  match fs.unexpected with
  | some e =>
    ({ c with rooIgnoreContent := none, patterns := [] },
      [LogMsg.error ("Unexpected error loading .kilocodeignore files: " ++ e)])
  | none =>
    let files := findKilocodeIgnoreFiles fs c.cwd
    if files = [] then ({ c with rooIgnoreContent := none, patterns := [] }, [])
    else
      let res := loadLoop fs c.cwd files [] []
      if res.1 ≠ [] then
        let content := joinNL res.1
        ({ c with rooIgnoreContent := some content,
                  patterns := addPatterns (addPatterns [] content)
                    "**/.kilocodeignore" }, res.2)
      else ({ c with rooIgnoreContent := none, patterns := [] }, res.2)

/-! ## Access validation (`validateAccess`) -/

/-- The relative path that `validateAccess` finally hands to the matcher:
resolve the candidate against the root, follow symlinks via `realpathSync`
(falling back to the unresolved absolute path when that throws), relativize
against the root and normalize separators; if the result escapes the root
(leading `../` or still absolute), fall back to the original candidate. -/
def relArg (fs : FS) (c : Controller) (filePath : String) : String :=
  let absolutePath := resolvePath c.cwd filePath
  let realPath := (fs.realpath absolutePath).getD absolutePath
  let relativePath0 := toPosix (relativePath c.cwd realPath)
  if strStartsWith relativePath0 "../" || strStartsWith relativePath0 "/" then
    toPosix filePath
  else relativePath0

/-- `validateAccess(filePath)`: `true` when no restrictions are active;
otherwise the path is accessible iff the matcher does not ignore it, and any
exception (in particular the matcher's path-validation throw) is swallowed
and treated as allow. -/
def validateAccess (m : GlobSemantics) (fs : FS) (c : Controller)
    (filePath : String) : Bool :=
  if contentFalsy c.rooIgnoreContent then true
  else
    match ignoresE m c.patterns (relArg fs c filePath) with
    | Except.ok ignored => !ignored
    | Except.error _ => true

/-! ## Command scanning (`validateCommand`) -/

/-- The fixed allow-list of file-content-reading commands. -/
def fileReadingCommands : List String :=
  ["cat", "less", "more", "head", "tail", "grep", "awk", "sed",
   "get-content", "gc", "type", "select-string", "sls"]

/-- The argument scan of `validateCommand`: left to right, skipping
flag-style tokens (leading `-` or `/`) and tokens containing a colon,
returning the first token that fails `validateAccess`. -/
def scanCommandArgs (m : GlobSemantics) (fs : FS) (c : Controller) :
    List String → Option String
  | [] => none
  | arg :: rest =>
    if strStartsWith arg "-" || strStartsWith arg "/" then
      scanCommandArgs m fs c rest
    else if strContainsChar arg ':' then scanCommandArgs m fs c rest
    else if validateAccess m fs c arg then scanCommandArgs m fs c rest
    else some arg

/-- `validateCommand(command)`: `none` when no restrictions are active or the
lower-cased first token is not a file-reading command; otherwise the first
blocked positional argument, if any. -/
def validateCommand (m : GlobSemantics) (fs : FS) (c : Controller)
    (command : String) : Option String :=
  if contentFalsy c.rooIgnoreContent then none
  else if fileReadingCommands.contains (jsToLower ((splitWS command).headD ""))
  then scanCommandArgs m fs c (splitWS command).tail
  else none

/-! ## Batch filtering (`filterPaths`) -/

/-- `paths.map((p) => ({ path: p, allowed: check(p) }))` inside the `try`:
the pairs are built left to right, and the first throw of the per-path check
aborts the whole map with that exception. -/
def mapPairsE (f : String → Except String Bool) :
    List String → Except String (List (String × Bool))
  | [] => Except.ok []
  | p :: rest =>
    match f p with
    | Except.error e => Except.error e
    | Except.ok b =>
      match mapPairsE f rest with
      | Except.error e => Except.error e
      | Except.ok l => Except.ok ((p, b) :: l)

/-- The body of `filterPaths` with the per-path check abstracted (tests stub
`validateAccess` with a throwing function, which the surrounding `try` turns
into an empty result): map the check over the batch, keep the allowed paths,
and return `[]` if the check throws anywhere. -/
def filterPathsTry (f : String → Except String Bool) (paths : List String) :
    List String :=
  match mapPairsE f paths with
  | Except.ok l => (l.filter (fun x => x.2)).map (fun x => x.1)
  | Except.error _ => []

/-- `filterPaths(paths)`: keep the paths that `validateAccess` allows. -/
def filterPaths (m : GlobSemantics) (fs : FS) (c : Controller)
    (paths : List String) : List String :=
  filterPathsTry (fun p => Except.ok (validateAccess m fs c p)) paths

/-! ## Watcher / debounce / dispose (`setupFileWatcher`, `debouncedReload`,
`dispose`) -/

/-- The watcher-facing state of one controller: `watching` is whether the
watcher subscriptions in `disposables` are still registered, `pending` is
whether a debounce timer (`reloadTimeout`) is armed, and `reloads` counts
completed `loadRooIgnore` runs. -/
structure Sys where
  ctrl : Controller
  watching : Bool
  pending : Bool
  reloads : Nat

/-- External events: a file-change notification delivered to the watcher
callbacks, the debounce timer firing, and a `dispose()` call. -/
inductive Ev where
  | notify
  | timerFire
  | disposeEv
deriving DecidableEq

/-- One step of the watcher state machine.  A notification reaching a live
subscription (re)arms the debounce timer (`debouncedReload`).  A firing timer
runs `loadRooIgnore` — nothing guards it on disposal.  `dispose()` releases
the subscriptions and clears `disposables`, but does not touch
`reloadTimeout`. -/
def stepEv (fs : FS) (s : Sys) : Ev → Sys
  | Ev.notify => if s.watching then { s with pending := true } else s
  | Ev.timerFire =>
    if s.pending then
      { s with
        pending := false
        ctrl := (loadRooIgnore fs s.ctrl).1
        reloads := s.reloads + 1 }
    else s
  | Ev.disposeEv => { s with watching := false }

/-- Run a sequence of external events. -/
def runEvs (fs : FS) (s : Sys) (evs : List Ev) : Sys :=
  evs.foldl (stepEv fs) s

/-! ## Specification-side descriptions of the load -/

/-- The combined-content buffer that the per-file loop produces: each readable
file with non-empty trimmed content contributes its two-line unit (provenance
comment, then the raw content verbatim); unreadable and blank files
contribute nothing. -/
def contribOf (fs : FS) (cwd : String) : List String → List String
  | [] => []
  | f :: rest =>
    (match fs.read f with
     | Except.ok ct => if jsTrim ct ≠ "" then [fromComment cwd f, ct] else []
     | Except.error _ => []) ++ contribOf fs cwd rest

/-- The warnings the per-file loop logs: one per unreadable file. -/
def warnsOf (fs : FS) : List String → List LogMsg
  | [] => []
  | f :: rest =>
    (match fs.read f with
     | Except.ok _ => []
     | Except.error e => [LogMsg.warn (readWarn f e)]) ++ warnsOf fs rest

/-- The non-empty leading slices of a segment list, shortest (closest to the
root) first: the directories from the workspace root down to the target. -/
def nePrefixes (segs : List String) : List (List String) :=
  (List.range segs.length).map (fun i => segs.take (i + 1))

/-! ## Concrete fixtures used by examples, witnesses and counterexamples -/

/-- A file system holding a single ignore-file `/w/.kilocodeignore` with
content `secrets/**`, no symlinks, and no unexpected failure. -/
def fsDemo : FS where
  access := fun p => p == "/w/.kilocodeignore"
  read := fun p =>
    if p == "/w/.kilocodeignore" then Except.ok "secrets/**"
    else Except.error "ENOENT"
  realpath := fun _ => none
  unexpected := none

/-- A freshly constructed controller for the workspace root `/w`. -/
def cDemo0 : Controller where
  cwd := "/w"
  patterns := []
  rooIgnoreContent := none

/-- The controller for `/w` after `initialize()` against `fsDemo`. -/
def cDemo : Controller := (loadRooIgnore fsDemo cDemo0).1

/-- A concrete instance of the external matcher semantics, agreeing with
gitignore matching on the pattern set of `fsDemo`: `secrets/**` ignores
everything under `secrets/`. -/
def mDemo : GlobSemantics := fun pats p =>
  pats.contains "secrets/**" && strStartsWith p "secrets/"

/-- A file system where `/w/.kilocodeignore` exists but cannot be read. -/
def fsUnreadable : FS where
  access := fun p => p == "/w/.kilocodeignore"
  read := fun _ => Except.error "EACCES"
  realpath := fun _ => none
  unexpected := none

/-- A file system whose load raises an unexpected exception outside the
per-file read loop. -/
def fsBoom : FS where
  access := fun _ => false
  read := fun _ => Except.error "EIO"
  realpath := fun _ => none
  unexpected := some "boom"

/-! ## Supporting lemmas -/

theorem strData_append (a b : String) : (a ++ b).data = a.data ++ b.data :=
  String.data_append a b

theorem str_eq_empty_iff (s : String) : s = "" ↔ s.data = [] := by
  constructor
  · intro h; rw [h]
  · intro h
    cases s with
    | mk l => exact congrArg String.mk h

theorem charsStartWith_iff (p l : List Char) :
    charsStartWith l p = true ↔ ∃ t, l = p ++ t := by
  induction p generalizing l with
  | nil =>
    simp [charsStartWith]
  | cons q qs ih =>
    cases l with
    | nil => simp [charsStartWith]
    | cons c cs =>
      simp only [charsStartWith, Bool.and_eq_true, decide_eq_true_eq, ih,
        List.cons_append, List.cons.injEq]
      constructor
      · rintro ⟨h1, t, h2⟩; exact ⟨t, h1, h2⟩
      · rintro ⟨t, h1, h2⟩; exact ⟨h1, t, h2⟩

theorem strStartsWith_iff (s p : String) :
    strStartsWith s p = true ↔ ∃ t, s.data = p.data ++ t :=
  charsStartWith_iff p.data s.data

theorem loadLoop_eq (fs : FS) (cwd : String) (files : List String) :
    ∀ acc logs, loadLoop fs cwd files acc logs =
      (acc ++ contribOf fs cwd files, logs ++ warnsOf fs files) := by
  induction files with
  | nil => intro acc logs; simp [loadLoop, contribOf, warnsOf]
  | cons f rest ih =>
    intro acc logs
    simp only [loadLoop, contribOf, warnsOf]
    cases h : fs.read f with
    | ok ct =>
      by_cases hct : jsTrim ct ≠ "" <;>
        simp [hct, ih, List.append_assoc]
    | error e => simp [ih, List.append_assoc]

theorem contribOf_append (fs : FS) (cwd : String) (l1 l2 : List String) :
    contribOf fs cwd (l1 ++ l2) = contribOf fs cwd l1 ++ contribOf fs cwd l2 := by
  induction l1 with
  | nil => simp [contribOf]
  | cons f rest ih => simp [contribOf, ih, List.append_assoc]

theorem warnsOf_append (fs : FS) (l1 l2 : List String) :
    warnsOf fs (l1 ++ l2) = warnsOf fs l1 ++ warnsOf fs l2 := by
  induction l1 with
  | nil => simp [warnsOf]
  | cons f rest ih => simp [warnsOf, ih, List.append_assoc]

/-! ## Path lemmas for escape analysis -/

/-- `underSegs root p = true` iff the segment list `root` is an initial run
of `p`, i.e. the path `p` lies at or below the directory `root`. -/
def underSegs : List String → List String → Bool
  | [], _ => true
  | _ :: _, [] => false
  | a :: as, b :: bs => a = b && underSegs as bs

theorem stripCommon_fst_nil_iff (a b : List String) :
    (stripCommon a b).1 = [] ↔ underSegs a b = true := by
  induction a generalizing b with
  | nil => cases b <;> simp [stripCommon, underSegs]
  | cons x xs ih =>
    cases b with
    | nil => simp [stripCommon, underSegs]
    | cons y ys =>
      by_cases hxy : x = y
      · simp [stripCommon, underSegs, hxy, ih]
      · simp [stripCommon, underSegs, hxy]

theorem relativeSegs_head_dotdot (cwdS realS : List String)
    (h : underSegs cwdS realS = false) :
    ∃ rest, relativeSegs cwdS realS = ".." :: rest := by
  have h1 : (stripCommon cwdS realS).1 ≠ [] := by
    intro hnil
    rw [(stripCommon_fst_nil_iff cwdS realS).mp hnil] at h
    cases h
  obtain ⟨x, xs, hx⟩ := List.exists_cons_of_ne_nil h1
  refine ⟨xs.map (fun _ => "..") ++ (stripCommon cwdS realS).2, ?_⟩
  simp only [relativeSegs, hx, List.map_cons, List.cons_append]

theorem validateAccess_true_of_invalid (m : GlobSemantics) (fs : FS)
    (c : Controller) (fp : String)
    (h : testInvalidPath (relArg fs c fp) = true) :
    validateAccess m fs c fp = true := by
  unfold validateAccess
  by_cases hcf : contentFalsy c.rooIgnoreContent = true
  · rw [if_pos hcf]
  · rw [if_neg hcf]
    have herr : ∃ e, ignoresE m c.patterns (relArg fs c fp) =
        Except.error e := by
      unfold ignoresE
      by_cases hempty : relArg fs c fp = ""
      · exact ⟨_, by rw [if_pos hempty]⟩
      · exact ⟨_, by rw [if_neg hempty, if_pos h]⟩
    obtain ⟨e, he⟩ := herr
    rw [he]

theorem relArg_invalid_of_escape (fs : FS) (c : Controller) (fp : String)
    (hfp : strStartsWith fp "/" = true ∨ strStartsWith fp "../" = true)
    (hout : underSegs (normSegs (segsOf c.cwd))
      (normSegs (segsOf ((fs.realpath (resolvePath c.cwd fp)).getD
        (resolvePath c.cwd fp)))) = false) :
    testInvalidPath (relArg fs c fp) = true := by
  obtain ⟨rest, hrel⟩ := relativeSegs_head_dotdot _ _ hout
  have hrp : relativePath c.cwd
      ((fs.realpath (resolvePath c.cwd fp)).getD (resolvePath c.cwd fp)) =
      joinRel (".." :: rest) := by
    unfold relativePath; rw [hrel]
  have hinvfp : testInvalidPath (toPosix fp) = true := by
    rcases hfp with h | h
    · obtain ⟨t, ht⟩ := (strStartsWith_iff fp "/").mp h
      rw [show ("/" : String).data = ['/'] from rfl] at ht
      simp [testInvalidPath, toPosix, ht]
    · obtain ⟨t, ht⟩ := (strStartsWith_iff fp "../").mp h
      rw [show ("../" : String).data = ['.', '.', '/'] from rfl] at ht
      simp [testInvalidPath, toPosix, ht, List.dropWhile]
  simp only [relArg]
  rw [hrp]
  cases rest with
  | nil =>
    rw [show joinRel [".."] = ".." from rfl]
    rw [show toPosix ".." = ".." from rfl]
    rw [show strStartsWith ".." "../" = false from rfl]
    rw [show strStartsWith ".." "/" = false from rfl]
    simp only [Bool.or_self]
    rw [if_neg (by simp)]
    decide
  | cons r rs =>
    have hdata : (toPosix (joinRel (".." :: r :: rs))).data =
        '.' :: '.' :: '/' ::
          (joinRel (r :: rs)).data.map (fun ch => if ch = '\\' then '/' else ch) := by
      rw [show joinRel (".." :: r :: rs) = ".." ++ "/" ++ joinRel (r :: rs)
        from rfl]
      simp [toPosix, strData_append]
    have hstart : strStartsWith (toPosix (joinRel (".." :: r :: rs))) "../"
        = true := by
      unfold strStartsWith
      rw [hdata, show ("../" : String).data = ['.', '.', '/'] from rfl]
      simp [charsStartWith]
    rw [if_pos (by rw [hstart]; simp)]
    exact hinvfp

/-! ## C1: catastrophic load failure -/

/-- Claim C1: if an unexpected exception occurs during hierarchy loading
outside the per-file read loop, `loadRooIgnore` catches it, logs an error,
resets `rooIgnoreContent` to the "no restrictions" sentinel and replaces the
compiled matcher with a fresh empty instance, after which every
`validateAccess` call returns `true`. -/
theorem claim1_catastrophic_load_fails_open
    (fs : FS) (c : Controller) (e : String) (h : fs.unexpected = some e) :
    loadRooIgnore fs c =
      ({ c with rooIgnoreContent := none, patterns := [] },
        [LogMsg.error ("Unexpected error loading .kilocodeignore files: " ++ e)]) ∧
    ∀ (m : GlobSemantics) (fs2 : FS) (p : String),
      validateAccess m fs2 (loadRooIgnore fs c).1 p = true := by
  have h1 : loadRooIgnore fs c =
      ({ c with rooIgnoreContent := none, patterns := [] },
        [LogMsg.error ("Unexpected error loading .kilocodeignore files: " ++ e)]) := by
    simp only [loadRooIgnore, h]
  refine ⟨h1, ?_⟩
  intro m fs2 p
  rw [h1]
  simp [validateAccess, contentFalsy]

/-- Witness for C1 at a concrete file system. -/
theorem claim1_witness :
    loadRooIgnore fsBoom cDemo0 =
      ({ cDemo0 with rooIgnoreContent := none, patterns := [] },
        [LogMsg.error "Unexpected error loading .kilocodeignore files: boom"]) ∧
    validateAccess mDemo fsDemo (loadRooIgnore fsBoom cDemo0).1
      "secrets/keys.json" = true := by
  have h := claim1_catastrophic_load_fails_open fsBoom cDemo0 "boom" rfl
  exact ⟨h.1, h.2 mDemo fsDemo "secrets/keys.json"⟩

/-! ## C2: exceptions and escaping paths fail open -/

/-- Claim C2: any exception raised while checking a candidate path (in the
model, the matcher's path-validation throw) is swallowed and turns into
`true`; and an absolute candidate, or a `../`-relative candidate, whose
(symlink-resolved) target lies outside the workspace root validates as
accessible regardless of the active patterns. -/
theorem claim2_escape_fails_open :
    (∀ (m : GlobSemantics) (fs : FS) (c : Controller) (fp e : String),
       ignoresE m c.patterns (relArg fs c fp) = Except.error e →
       validateAccess m fs c fp = true) ∧
    (∀ (m : GlobSemantics) (fs : FS) (c : Controller) (fp : String),
       strStartsWith fp "/" = true ∨ strStartsWith fp "../" = true →
       underSegs (normSegs (segsOf c.cwd))
         (normSegs (segsOf ((fs.realpath (resolvePath c.cwd fp)).getD
           (resolvePath c.cwd fp)))) = false →
       validateAccess m fs c fp = true) := by
  constructor
  · intro m fs c fp e h
    unfold validateAccess
    by_cases hcf : contentFalsy c.rooIgnoreContent = true
    · rw [if_pos hcf]
    · rw [if_neg hcf, h]
  · intro m fs c fp hfp hout
    exact validateAccess_true_of_invalid m fs c fp
      (relArg_invalid_of_escape fs c fp hfp hout)

/-- Witness for C2: the empty candidate makes the matcher throw, and an
absolute path outside `/w` is accessible even though the matcher would match
it. -/
theorem claim2_witness :
    validateAccess mDemo fsDemo cDemo "" = true ∧
    validateAccess (fun _ _ => true) fsDemo cDemo "/etc/passwd" = true := by
  constructor
  · exact claim2_escape_fails_open.1 mDemo fsDemo cDemo ""
      "path must not be empty" rfl
  · exact claim2_escape_fails_open.2 (fun _ _ => true) fsDemo cDemo
      "/etc/passwd" (Or.inl (by decide)) (by decide)

/-! ## C3: the "no restrictions" sentinel allows every path -/

/-- Claim C3: whenever the combined-content field is the sentinel
(`undefined`), `validateAccess` returns `true` for every path; and a load
that finds no ignore-file, or only files that are unreadable or
whitespace-only, leaves the sentinel in place. -/
theorem claim3_sentinel_allows_everything :
    (∀ (m : GlobSemantics) (fs : FS) (c : Controller) (p : String),
       c.rooIgnoreContent = none → validateAccess m fs c p = true) ∧
    (∀ (fs : FS) (c : Controller), fs.unexpected = none →
       (∀ f ∈ findKilocodeIgnoreFiles fs c.cwd,
          match fs.read f with
          | Except.ok ct => jsTrim ct = ""
          | Except.error _ => True) →
       (loadRooIgnore fs c).1.rooIgnoreContent = none) := by
  constructor
  · intro m fs c p h
    simp [validateAccess, h, contentFalsy]
  · intro fs c hu hall
    have hcontrib : ∀ files : List String,
        (∀ f ∈ files, match fs.read f with
          | Except.ok ct => jsTrim ct = ""
          | Except.error _ => True) →
        contribOf fs c.cwd files = [] := by
      intro files
      induction files with
      | nil => intro _; rfl
      | cons f rest ih =>
        intro h
        have hf := h f (by simp)
        have hrest := ih (fun g hg => h g (by simp [hg]))
        cases hread : fs.read f with
        | ok ct =>
          rw [hread] at hf
          simp [contribOf, hread, hf, hrest]
        | error e => simp [contribOf, hread, hrest]
    simp only [loadRooIgnore, hu]
    by_cases hfiles : findKilocodeIgnoreFiles fs c.cwd = []
    · simp [hfiles]
    · simp only [hfiles, if_neg, loadLoop_eq, List.nil_append,
        hcontrib _ hall]
      simp

/-- Witness for C3 at concrete inputs. -/
theorem claim3_witness :
    validateAccess mDemo fsDemo cDemo0 "secrets/key" = true ∧
    (loadRooIgnore fsUnreadable cDemo0).1.rooIgnoreContent = none := by
  refine ⟨claim3_sentinel_allows_everything.1 mDemo fsDemo cDemo0 "secrets/key" rfl, ?_⟩
  exact claim3_sentinel_allows_everything.2 fsUnreadable cDemo0 rfl
    (by intro f _; simp [fsUnreadable])

/-! ## C5: batch filtering -/

theorem mapPairsE_ok_of_total (g : String → Bool) (l : List String) :
    mapPairsE (fun p => Except.ok (g p)) l =
      Except.ok (l.map fun p => (p, g p)) := by
  induction l with
  | nil => rfl
  | cons a l ih => simp [mapPairsE, ih]

theorem filter_map_fst (g : String → Bool) (l : List String) :
    ((l.map fun p => (p, g p)).filter (fun x => x.2)).map (fun x => x.1) =
      l.filter g := by
  induction l with
  | nil => rfl
  | cons a l ih =>
    by_cases h : g a <;> simp [List.filter, h, ih]

theorem mapPairsE_error_of_mem (f : String → Except String Bool) :
    ∀ (l : List String) (p e : String), p ∈ l → f p = Except.error e →
      ∃ e2, mapPairsE f l = Except.error e2 := by
  intro l
  induction l with
  | nil => intro p e h; simp at h
  | cons a l ih =>
    intro p e hmem hfp
    cases hfa : f a with
    | error e0 => exact ⟨e0, by simp [mapPairsE, hfa]⟩
    | ok b =>
      rcases List.mem_cons.mp hmem with h | h
      · rw [h] at hfp; rw [hfa] at hfp; cases hfp
      · obtain ⟨e2, h2⟩ := ih p e h hfp
        exact ⟨e2, by simp [mapPairsE, hfa, h2]⟩

/-- Claim C5: `filterPaths` returns exactly the order-preserving subsequence
of its input whose members pass `validateAccess`; and if the per-path check
throws anywhere in the batch, the whole call returns `[]` instead of a
partial result. -/
theorem claim5_filterPaths_filters :
    (∀ (m : GlobSemantics) (fs : FS) (c : Controller) (paths : List String),
       filterPaths m fs c paths =
         paths.filter (fun p => validateAccess m fs c p) ∧
       List.Sublist (filterPaths m fs c paths) paths) ∧
    (∀ (f : String → Except String Bool) (paths : List String) (p e : String),
       p ∈ paths → f p = Except.error e → filterPathsTry f paths = []) := by
  constructor
  · intro m fs c paths
    have h : filterPaths m fs c paths =
        paths.filter (fun p => validateAccess m fs c p) := by
      unfold filterPaths filterPathsTry
      rw [mapPairsE_ok_of_total]
      exact filter_map_fst _ _
    exact ⟨h, h ▸ List.filter_sublist paths⟩
  · intro f paths p e hmem hfp
    obtain ⟨e2, h2⟩ := mapPairsE_error_of_mem f paths p e hmem hfp
    unfold filterPathsTry
    rw [h2]

/-- Witness for C5 at concrete inputs: `b` ignored keeps `[a, c]`, and a
throwing check empties the batch. -/
theorem claim5_witness :
    filterPaths mDemo fsDemo cDemo ["a", "secrets/keys.json", "c"] =
      List.filter (fun p => validateAccess mDemo fsDemo cDemo p)
        ["a", "secrets/keys.json", "c"] ∧
    filterPathsTry
      (fun p => if p = "b" then Except.error "boom" else Except.ok true)
      ["a", "b", "c"] = [] := by
  constructor
  · exact (claim5_filterPaths_filters.1 mDemo fsDemo cDemo
      ["a", "secrets/keys.json", "c"]).1
  · exact claim5_filterPaths_filters.2 _ ["a", "b", "c"] "b" "boom"
      (by decide) (by simp)

/-! ## C4: the command scan -/

/-- The tokens the argument scan skips: flag-style tokens (leading `-` or
`/`) and colon-containing tokens. -/
def skipTok (a : String) : Bool :=
  strStartsWith a "-" || strStartsWith a "/" || strContainsChar a ':'

theorem scanCommandArgs_eq_find (m : GlobSemantics) (fs : FS) (c : Controller)
    (l : List String) :
    scanCommandArgs m fs c l =
      (l.filter (fun a => !skipTok a)).find?
        (fun a => !validateAccess m fs c a) := by
  induction l with
  | nil => rfl
  | cons a rest ih =>
    by_cases h1 : (strStartsWith a "-" || strStartsWith a "/") = true
    · have hskip : skipTok a = true := by simp [skipTok, h1]
      rw [show scanCommandArgs m fs c (a :: rest) = scanCommandArgs m fs c rest
        from by simp [scanCommandArgs, h1]]
      rw [List.filter_cons, if_neg (by simp [hskip]), ih]
    · by_cases h2 : strContainsChar a ':' = true
      · have hskip : skipTok a = true := by simp [skipTok, h2]
        rw [show scanCommandArgs m fs c (a :: rest) =
            scanCommandArgs m fs c rest
          from by simp [scanCommandArgs, h1, h2]]
        rw [List.filter_cons, if_neg (by simp [hskip]), ih]
      · have hskip : skipTok a = false := by
          simp only [Bool.or_eq_true] at h1
          push_neg at h1
          simp [skipTok, Bool.eq_false_iff.mpr h1.1,
            Bool.eq_false_iff.mpr h1.2, Bool.eq_false_iff.mpr h2]
        by_cases h3 : validateAccess m fs c a = true
        · rw [show scanCommandArgs m fs c (a :: rest) =
              scanCommandArgs m fs c rest
            from by simp [scanCommandArgs, h1, h2, h3]]
          rw [List.filter_cons, if_pos (by simp [hskip]),
            List.find?_cons_of_neg _ (by simp [h3]), ih]
        · have hv : validateAccess m fs c a = false := Bool.eq_false_iff.mpr h3
          rw [show scanCommandArgs m fs c (a :: rest) = some a
            from by simp [scanCommandArgs, h1, h2, hv]]
          rw [List.filter_cons, if_pos (by simp [hskip]),
            List.find?_cons_of_pos _ (by simp [hv])]

/-- Claim C4: `validateCommand` splits on whitespace runs; a lower-cased
first token outside the file-reading list yields `none`; otherwise the scan
of the remaining tokens skips flag tokens (leading `-` or `/`) and
colon-containing tokens, and returns the first remaining token failing
`validateAccess`.  Concretely, with `secrets/**` ignored,
`validateCommand "cat secrets/keys.json"` returns `"secrets/keys.json"` and
`validateCommand "ls secrets"` returns `none`. -/
theorem claim4_validateCommand_scan :
    (∀ (m : GlobSemantics) (fs : FS) (c : Controller) (cmd : String),
       fileReadingCommands.contains (jsToLower ((splitWS cmd).headD "")) = false →
       validateCommand m fs c cmd = none) ∧
    (∀ (m : GlobSemantics) (fs : FS) (c : Controller) (cmd : String),
       contentFalsy c.rooIgnoreContent = false →
       fileReadingCommands.contains (jsToLower ((splitWS cmd).headD "")) = true →
       validateCommand m fs c cmd =
         ((splitWS cmd).tail.filter (fun a => !skipTok a)).find?
           (fun a => !validateAccess m fs c a)) ∧
    validateCommand mDemo fsDemo cDemo "cat secrets/keys.json" =
      some "secrets/keys.json" ∧
    validateCommand mDemo fsDemo cDemo "ls secrets" = none := by
  refine ⟨?_, ?_, by decide, by decide⟩
  · intro m fs c cmd h
    unfold validateCommand
    by_cases hc : contentFalsy c.rooIgnoreContent = true
    · rw [if_pos hc]
    · rw [if_neg hc, if_neg (by rw [h]; exact Bool.false_ne_true)]
  · intro m fs c cmd hc h
    unfold validateCommand
    rw [if_neg (by simp [hc]), if_pos h, scanCommandArgs_eq_find]

/-- Witness for C4's conditional conjuncts at concrete commands. -/
theorem claim4_witness :
    validateCommand mDemo fsDemo cDemo0 "echo hi" = none ∧
    validateCommand mDemo fsDemo cDemo "cat -n secrets/keys.json" =
      ((splitWS "cat -n secrets/keys.json").tail.filter
        (fun a => !skipTok a)).find?
        (fun a => !validateAccess mDemo fsDemo cDemo a) := by
  constructor
  · exact claim4_validateCommand_scan.1 mDemo fsDemo cDemo0
      "echo hi" (by decide)
  · exact claim4_validateCommand_scan.2.1 mDemo fsDemo cDemo
      "cat -n secrets/keys.json" (by decide) (by decide)

/-! ## C10: provenance of the token returned by validateCommand -/

theorem scanCommandArgs_some (m : GlobSemantics) (fs : FS) (c : Controller) :
    ∀ (l : List String) (s : String), scanCommandArgs m fs c l = some s →
      s ∈ l ∧ strStartsWith s "-" = false ∧ strStartsWith s "/" = false ∧
      strContainsChar s ':' = false ∧ validateAccess m fs c s = false := by
  intro l
  induction l with
  | nil => intro s h; simp [scanCommandArgs] at h
  | cons a rest ih =>
    intro s h
    simp only [scanCommandArgs] at h
    by_cases h1 : (strStartsWith a "-" || strStartsWith a "/") = true
    · rw [if_pos h1] at h
      have hr := ih s h
      exact ⟨List.mem_cons_of_mem a hr.1, hr.2⟩
    · rw [if_neg h1] at h
      by_cases h2 : strContainsChar a ':' = true
      · rw [if_pos h2] at h
        have hr := ih s h
        exact ⟨List.mem_cons_of_mem a hr.1, hr.2⟩
      · rw [if_neg h2] at h
        by_cases h3 : validateAccess m fs c a = true
        · rw [if_pos h3] at h
          have hr := ih s h
          exact ⟨List.mem_cons_of_mem a hr.1, hr.2⟩
        · rw [if_neg h3] at h
          cases h
          have h1p : strStartsWith a "-" = false ∧ strStartsWith a "/" = false := by
            constructor <;> [skip; skip] <;>
              simp only [Bool.or_eq_true] at h1 <;>
              push_neg at h1
            · exact Bool.eq_false_iff.mpr h1.1
            · exact Bool.eq_false_iff.mpr h1.2
          exact ⟨List.mem_cons_self a rest, h1p.1, h1p.2,
            Bool.eq_false_iff.mpr h2, Bool.eq_false_iff.mpr h3⟩

/-- Claim C10: whenever `validateCommand` returns a string, that string is
one of the whitespace tokens of the trimmed command, returned verbatim; it
does not begin with `-` or `/`, contains no `:`, and `validateAccess` of it
is `false` in the same state. -/
theorem claim10_blocked_token_provenance
    (m : GlobSemantics) (fs : FS) (c : Controller) (cmd s : String)
    (h : validateCommand m fs c cmd = some s) :
    s ∈ splitWS cmd ∧ strStartsWith s "-" = false ∧
    strStartsWith s "/" = false ∧ strContainsChar s ':' = false ∧
    validateAccess m fs c s = false := by
  unfold validateCommand at h
  by_cases hc : contentFalsy c.rooIgnoreContent = true
  · rw [if_pos hc] at h; cases h
  · rw [if_neg hc] at h
    by_cases hb : fileReadingCommands.contains
        (jsToLower ((splitWS cmd).headD "")) = true
    · rw [if_pos hb] at h
      have hr := scanCommandArgs_some m fs c _ s h
      exact ⟨List.mem_of_mem_tail hr.1, hr.2⟩
    · rw [if_neg hb] at h; cases h

/-! ## C6: hierarchy discovery and the combined buffer -/

theorem nePrefixes_concat (l : List String) (a : String) :
    nePrefixes (l ++ [a]) = nePrefixes l ++ [l ++ [a]] := by
  unfold nePrefixes
  rw [List.length_append, List.length_singleton, List.range_succ,
    List.map_append]
  congr 1
  · apply List.map_congr_left
    intro i hi
    have : i + 1 ≤ l.length := List.mem_range.mp hi
    exact List.take_append_of_le_length this
  · simp [List.take_of_length_le]

theorem walkUpRev_reverse_eq (fs : FS) (segs : List String) :
    (walkUpRev fs segs.reverse).reverse =
      ((nePrefixes segs).map igPathOf).filter fs.access := by
  induction segs using List.reverseRecOn with
  | nil => rfl
  | append_singleton l a ih =>
    rw [List.reverse_append, List.reverse_singleton, List.singleton_append]
    rw [show walkUpRev fs (a :: l.reverse) =
        (if fs.access (igPathOf ((a :: l.reverse).reverse)) then
          [igPathOf ((a :: l.reverse).reverse)]
        else []) ++ walkUpRev fs l.reverse from rfl]
    rw [List.reverse_append, ih, nePrefixes_concat, List.map_append,
      List.filter_append]
    congr 1
    simp only [List.reverse_cons, List.reverse_reverse, List.map_singleton,
      List.filter_cons, List.filter_nil]
    by_cases h : fs.access (igPathOf (l ++ [a])) = true <;> simp [h]

/-- Claim C6: the hierarchy load discovers ignore-files by walking upward
from the start directory, and after the final reversal the discovered files
are exactly the existing candidates ordered root-first; the combined buffer
then receives, for each file with non-empty trimmed content, the provenance
comment `# From: <relative path>` followed by the raw content, while blank
files contribute nothing. -/
theorem claim6_rootfirst_discovery_and_buffer :
    (∀ (fs : FS) (target : String),
       findKilocodeIgnoreFiles fs target =
         ((nePrefixes (normSegs (segsOf target))).map igPathOf).filter
           fs.access) ∧
    (∀ (fs : FS) (c : Controller), fs.unexpected = none →
       findKilocodeIgnoreFiles fs c.cwd ≠ [] →
       (loadRooIgnore fs c).1.rooIgnoreContent =
         (if contribOf fs c.cwd (findKilocodeIgnoreFiles fs c.cwd) = [] then
           none
         else
           some (joinNL (contribOf fs c.cwd
             (findKilocodeIgnoreFiles fs c.cwd))))) := by
  constructor
  · intro fs target
    unfold findKilocodeIgnoreFiles
    exact walkUpRev_reverse_eq fs _
  · intro fs c hu hne
    simp only [loadRooIgnore, hu]
    rw [if_neg hne, loadLoop_eq, List.nil_append]
    by_cases hcon : contribOf fs c.cwd (findKilocodeIgnoreFiles fs c.cwd) = []
    · simp [hcon]
    · simp [hcon]

/-- Witness for C6 at the concrete demo file system. -/
theorem claim6_witness :
    findKilocodeIgnoreFiles fsDemo "/w" =
      ((nePrefixes (normSegs (segsOf "/w"))).map igPathOf).filter
        fsDemo.access ∧
    (loadRooIgnore fsDemo cDemo0).1.rooIgnoreContent =
      (if contribOf fsDemo cDemo0.cwd
          (findKilocodeIgnoreFiles fsDemo cDemo0.cwd) = [] then none
      else
        some (joinNL (contribOf fsDemo cDemo0.cwd
          (findKilocodeIgnoreFiles fsDemo cDemo0.cwd)))) :=
  ⟨claim6_rootfirst_discovery_and_buffer.1 fsDemo "/w",
    claim6_rootfirst_discovery_and_buffer.2 fsDemo cDemo0 rfl (by decide)⟩

/-! ## C8: one unreadable file never aborts the load -/

/-- Claim C8: when the read of one discovered ignore-file fails, the loop
logs a warning naming the failing path and the error, skips that file, and
still accumulates the contributions of every other discovered file. -/
theorem claim8_partial_load_continues
    (fs : FS) (c : Controller) (files1 files2 : List String) (f e : String)
    (hread : fs.read f = Except.error e) :
    (loadLoop fs c.cwd (files1 ++ f :: files2) [] []).1 =
      contribOf fs c.cwd files1 ++ contribOf fs c.cwd files2 ∧
    LogMsg.warn (readWarn f e) ∈
      (loadLoop fs c.cwd (files1 ++ f :: files2) [] []).2 := by
  rw [loadLoop_eq]
  constructor
  · rw [List.nil_append, contribOf_append]
    simp [contribOf, hread]
  · simp [warnsOf_append, warnsOf, hread]

/-- A file system where the root ignore-file is readable but the nested one
is not. -/
def fsMixed : FS where
  access := fun p => p == "/w/.kilocodeignore" || p == "/w/sub/.kilocodeignore"
  read := fun p =>
    if p == "/w/.kilocodeignore" then Except.ok "secrets/**"
    else Except.error "EPERM"
  realpath := fun _ => none
  unexpected := none

/-- Witness for C8: the unreadable nested file is warned about and skipped
while the readable root file's contribution survives. -/
theorem claim8_witness :
    (loadLoop fsMixed cDemo0.cwd
      (["/w/.kilocodeignore"] ++ "/w/sub/.kilocodeignore" :: []) [] []).1 =
      contribOf fsMixed cDemo0.cwd ["/w/.kilocodeignore"] ++
        contribOf fsMixed cDemo0.cwd [] ∧
    LogMsg.warn (readWarn "/w/sub/.kilocodeignore" "EPERM") ∈
      (loadLoop fsMixed cDemo0.cwd
        (["/w/.kilocodeignore"] ++ "/w/sub/.kilocodeignore" :: []) [] []).2 :=
  claim8_partial_load_continues fsMixed cDemo0 ["/w/.kilocodeignore"] []
    "/w/sub/.kilocodeignore" "EPERM" rfl

/-! ## C7: disposal and the debounce timer -/

/-- The watcher state of a freshly constructed controller for `/w`:
subscriptions live, no debounce timer armed. -/
def sysDemo : Sys where
  ctrl := cDemo0
  watching := true
  pending := false
  reloads := 0

/-- Counterexample to C7 as stated: a change notification received while the
watcher is live arms the debounce timer; `dispose()` clears the
subscriptions but does not cancel the timer (`reloadTimeout` is untouched),
so the timer still fires a hierarchy reload after `dispose()` has returned.
The second conjunct records that disposal completed before the timer
fired. -/
theorem claim7_counterexample :
    (runEvs fsDemo sysDemo [Ev.notify, Ev.disposeEv, Ev.timerFire]).reloads
      = 1 ∧
    (runEvs fsDemo sysDemo [Ev.notify, Ev.disposeEv]).watching = false := by
  decide

/-- Claim C7 (amended): `dispose()` releases all watcher subscriptions and
leaves the pending-timer flag as it was; after disposal with no debounce
timer pending, no event sequence ever changes the state (in particular no
reload runs); after disposal with a timer pending, at most that one
already-scheduled reload can still run. -/
theorem claim7_dispose_stops_new_reloads :
    (∀ (fs : FS) (s : Sys), stepEv fs s Ev.disposeEv =
      { s with watching := false }) ∧
    (∀ (fs : FS) (s : Sys) (evs : List Ev),
       s.watching = false → s.pending = false → runEvs fs s evs = s) ∧
    (∀ (fs : FS) (s : Sys) (evs : List Ev),
       s.watching = false →
       (runEvs fs s evs).reloads ≤
         s.reloads + (if s.pending then 1 else 0)) := by
  refine ⟨fun fs s => rfl, ?_, ?_⟩
  · intro fs s evs
    induction evs generalizing s with
    | nil => intro _ _; rfl
    | cons ev evs ih =>
      intro hw hp
      cases ev with
      | notify =>
        simp only [runEvs, List.foldl_cons, stepEv, hw]
        exact ih s hw hp
      | timerFire =>
        simp only [runEvs, List.foldl_cons, stepEv, hp]
        exact ih s hw hp
      | disposeEv =>
        have hs : { s with watching := false } = s := by
          cases s; simp_all
        simp only [runEvs, List.foldl_cons, stepEv, hs]
        exact ih s hw hp
  · intro fs s evs
    induction evs generalizing s with
    | nil => intro _; simp [runEvs]
    | cons ev evs ih =>
      intro hw
      cases ev with
      | notify =>
        simp only [runEvs, List.foldl_cons, stepEv, hw]
        exact ih s hw
      | timerFire =>
        by_cases hp : s.pending = true
        · have h2 := ih { s with
            pending := false
            ctrl := (loadRooIgnore fs s.ctrl).1
            reloads := s.reloads + 1 } hw
          simp only [runEvs, List.foldl_cons] at h2 ⊢
          simp only [stepEv, hp, if_true]
          simp at h2
          simp [hp]
          omega
        · have hp2 : s.pending = false := Bool.eq_false_iff.mpr hp
          have h2 := ih s hw
          simp only [runEvs, List.foldl_cons] at h2 ⊢
          simp only [stepEv, hp2]
          simp [hp2] at h2 ⊢
          simpa using h2
      | disposeEv =>
        simp only [runEvs, List.foldl_cons, stepEv]
        have h2 := ih { s with watching := false } rfl
        simpa using h2

/-- The watcher state right after `dispose()` on a quiescent controller. -/
def sysDisposed : Sys where
  ctrl := cDemo0
  watching := false
  pending := false
  reloads := 0

/-- Witness for the amended C7 at a concrete disposed state. -/
theorem claim7_witness :
    runEvs fsDemo sysDisposed [Ev.notify, Ev.timerFire] = sysDisposed ∧
    (runEvs fsDemo sysDisposed [Ev.notify, Ev.timerFire]).reloads ≤
      sysDisposed.reloads + (if sysDisposed.pending then 1 else 0) :=
  ⟨claim7_dispose_stops_new_reloads.2.1 fsDemo sysDisposed
      [Ev.notify, Ev.timerFire] rfl rfl,
    claim7_dispose_stops_new_reloads.2.2 fsDemo sysDisposed
      [Ev.notify, Ev.timerFire] rfl⟩

/-! ## Round-trip lemmas between segment lists and path strings -/

theorem segsOf_joinRel (segs : List String)
    (h : ∀ s ∈ segs, s ≠ "" ∧ '/' ∉ s.data) :
    segsOf (joinRel segs) = segs := by
  induction segs with
  | nil => rfl
  | cons s tl ih =>
    obtain ⟨hs, hslash⟩ := h s (by simp)
    have hnoslash : ∀ x ∈ s.data, ¬((fun a => a == '/') x = true) := by
      intro x hx hbeq
      exact hslash (beq_iff_eq.mp hbeq ▸ hx)
    cases tl with
    | nil =>
      show ((s.data.splitOn '/').map
        (fun cs => (⟨cs⟩ : String))).filter (fun x => x ≠ "") = [s]
      rw [show s.data.splitOn '/' = s.data.splitOnP (· == '/') from rfl,
        List.splitOnP_eq_single _ _ hnoslash]
      simp [hs]
    | cons r rs =>
      have hdata : (joinRel (s :: r :: rs)).data =
          s.data ++ '/' :: (joinRel (r :: rs)).data := by
        rw [show joinRel (s :: r :: rs) = s ++ "/" ++ joinRel (r :: rs)
          from rfl, strData_append, strData_append]
        simp
      show (((joinRel (s :: r :: rs)).data.splitOn '/').map
        (fun cs => (⟨cs⟩ : String))).filter (fun x => x ≠ "") = _
      rw [hdata,
        show (s.data ++ '/' :: (joinRel (r :: rs)).data).splitOn '/' =
          (s.data ++ '/' :: (joinRel (r :: rs)).data).splitOnP (· == '/')
          from rfl,
        List.splitOnP_first _ _ hnoslash '/' (by simp)]
      simp only [List.map_cons, List.filter_cons]
      rw [if_pos (by simpa using hs)]
      have := ih (fun x hx => h x (by simp [hx]))
      rw [show (⟨s.data⟩ : String) = s from rfl]
      congr 1

theorem segsOf_slash (x : String) : segsOf ("/" ++ x) = segsOf x := by
  show ((("/" ++ x).data.splitOn '/').map
    (fun cs => (⟨cs⟩ : String))).filter (fun s => s ≠ "") = _
  rw [strData_append, show ("/" : String).data = ['/'] from rfl,
    List.singleton_append,
    show ('/' :: x.data).splitOn '/' =
      ('/' :: x.data).splitOnP (· == '/') from rfl,
    List.splitOnP_cons, if_pos (by simp)]
  simp only [List.map_cons, List.filter_cons]
  rw [if_neg (by simp)]
  rfl

theorem segsOf_absString (segs : List String)
    (h : ∀ s ∈ segs, s ≠ "" ∧ '/' ∉ s.data) :
    segsOf (absString segs) = segs := by
  unfold absString
  rw [segsOf_slash, segsOf_joinRel segs h]

theorem normSegs_go (segs : List String)
    (h : ∀ s ∈ segs, s ≠ "." ∧ s ≠ "..") :
    ∀ acc, segs.foldl normStep acc = acc ++ segs := by
  induction segs with
  | nil => intro acc; simp
  | cons s tl ih =>
    intro acc
    obtain ⟨h1, h2⟩ := h s (by simp)
    simp only [List.foldl_cons, normStep, if_neg h1, if_neg h2]
    rw [ih (fun x hx => h x (by simp [hx])) (acc ++ [s])]
    simp

theorem normSegs_plain (segs : List String)
    (h : ∀ s ∈ segs, s ≠ "." ∧ s ≠ "..") : normSegs segs = segs := by
  unfold normSegs
  rw [normSegs_go segs h []]
  rfl

theorem normSegs_append_plain (a b : List String)
    (hb : ∀ s ∈ b, s ≠ "." ∧ s ≠ "..") :
    normSegs (a ++ b) = normSegs a ++ b := by
  unfold normSegs
  rw [List.foldl_append]
  exact normSegs_go b hb _

theorem stripCommon_self_append (a b : List String) :
    stripCommon a (a ++ b) = ([], b) := by
  induction a with
  | nil => rfl
  | cons x xs ih => simp [stripCommon, ih]

theorem joinRel_cons_data_shape (s0 : String) (tl : List String) :
    ∃ r, (joinRel (s0 :: tl)).data = s0.data ++ r ∧
      (r = [] ∨ ∃ r2, r = '/' :: r2) := by
  cases tl with
  | nil => exact ⟨[], by simp [joinRel], Or.inl rfl⟩
  | cons r rs =>
    refine ⟨'/' :: (joinRel (r :: rs)).data, ?_, Or.inr ⟨_, rfl⟩⟩
    rw [show joinRel (s0 :: r :: rs) = s0 ++ "/" ++ joinRel (r :: rs)
      from rfl, strData_append, strData_append]
    simp

theorem joinRel_startsWith_slash_false (s0 : String) (tl : List String)
    (hs0 : s0 ≠ "") (hslash : '/' ∉ s0.data) :
    strStartsWith (joinRel (s0 :: tl)) "/" = false := by
  rw [Bool.eq_false_iff]
  intro hT
  obtain ⟨t, ht⟩ := (strStartsWith_iff _ _).mp hT
  rw [show ("/" : String).data = ['/'] from rfl] at ht
  obtain ⟨r, hr, _⟩ := joinRel_cons_data_shape s0 tl
  rw [hr] at ht
  cases hd : s0.data with
  | nil => exact hs0 ((str_eq_empty_iff s0).mpr hd)
  | cons c cs =>
    rw [hd, List.cons_append] at ht
    simp only [List.singleton_append, List.cons.injEq] at ht
    exact hslash (ht.1 ▸ (hd ▸ List.mem_cons_self c cs))

theorem joinRel_startsWith_dotdot_false (s0 : String) (tl : List String)
    (hslash : '/' ∉ s0.data)
    (hdrop : s0.data.dropWhile (fun ch => ch = '.') ≠ []) :
    strStartsWith (joinRel (s0 :: tl)) "../" = false := by
  rw [Bool.eq_false_iff]
  intro hT
  obtain ⟨t, ht⟩ := (strStartsWith_iff _ _).mp hT
  rw [show ("../" : String).data = ['.', '.', '/'] from rfl] at ht
  obtain ⟨r, hr, hrshape⟩ := joinRel_cons_data_shape s0 tl
  rw [hr] at ht
  cases hd : s0.data with
  | nil => rw [hd] at hdrop; exact hdrop rfl
  | cons c1 cs1 =>
    rw [hd] at ht
    cases cs1 with
    | nil =>
      simp only [List.cons_append, List.nil_append, List.cons.injEq] at ht
      rcases hrshape with hre | ⟨r2, hre⟩
      · rw [hre] at ht
        exact absurd ht.2 (by simp)
      · rw [hre] at ht
        injection ht.2 with hh _
        exact absurd hh (by decide)
    | cons c2 cs2 =>
      cases cs2 with
      | nil =>
        simp only [List.cons_append, List.nil_append, List.cons.injEq] at ht
        obtain ⟨he1, he2, -⟩ := ht
        rw [hd, he1, he2] at hdrop
        exact hdrop rfl
      | cons c3 cs3 =>
        simp only [List.cons_append, List.cons.injEq] at ht
        obtain ⟨-, -, he3, -⟩ := ht
        exact hslash (he3 ▸ (hd ▸ (by simp : c3 ∈ (c1 :: c2 :: c3 :: cs3))))

theorem dropWhile_head_not (p : Char → Bool) :
    ∀ (l : List Char) (a : Char) (t : List Char),
      l.dropWhile p = a :: t → p a = false := by
  intro l
  induction l with
  | nil => intro a t h; cases h
  | cons x xs ih =>
    intro a t h
    rw [List.dropWhile_cons] at h
    by_cases hx : p x = true
    · rw [if_pos hx] at h; exact ih a t h
    · rw [if_neg hx] at h
      injection h with h1 _
      rw [← h1]
      exact Bool.eq_false_iff.mpr hx

theorem testInvalidPath_joinRel_false (s0 : String) (tl : List String)
    (hslash : '/' ∉ s0.data)
    (hdrop : s0.data.dropWhile (fun ch => ch = '.') ≠ []) :
    testInvalidPath (joinRel (s0 :: tl)) = false := by
  obtain ⟨r, hr, _⟩ := joinRel_cons_data_shape s0 tl
  obtain ⟨d0, ds0, hds⟩ := List.exists_cons_of_ne_nil hdrop
  have hd0dot : (fun ch => decide (ch = '.')) d0 = false :=
    dropWhile_head_not _ s0.data d0 ds0 hds
  have hd0mem : d0 ∈ s0.data :=
    (List.dropWhile_sublist _).subset (hds ▸ List.mem_cons_self d0 ds0)
  have hd0slash : ¬(d0 = '/') := fun heq => hslash (heq ▸ hd0mem)
  simp only [testInvalidPath, hr, List.dropWhile_append, hds]
  rw [if_neg (by simp)]
  simp [hd0slash]

theorem joinRel_data_mem (segs : List String) (ch : Char) :
    ch ∈ (joinRel segs).data → ch = '/' ∨ ∃ s ∈ segs, ch ∈ s.data := by
  induction segs with
  | nil => intro h; cases h
  | cons s tl ih =>
    intro h
    cases tl with
    | nil => exact Or.inr ⟨s, by simp, h⟩
    | cons r rs =>
      rw [show joinRel (s :: r :: rs) = s ++ "/" ++ joinRel (r :: rs)
        from rfl, strData_append, strData_append] at h
      rcases List.mem_append.mp h with h1 | h2
      · rcases List.mem_append.mp h1 with ha | hb
        · exact Or.inr ⟨s, by simp, ha⟩
        · left; simpa using hb
      · rcases ih h2 with h3 | ⟨s2, hs2, hch⟩
        · exact Or.inl h3
        · exact Or.inr ⟨s2, by simp [hs2], hch⟩

theorem toPosix_eq_self (x : String) (h : '\\' ∉ x.data) : toPosix x = x := by
  apply String.ext
  show x.data.map (fun c => if c = '\\' then '/' else c) = x.data
  conv_rhs => rw [← List.map_id x.data]
  apply List.map_congr_left
  intro c hc
  simp only [id_eq]
  rw [if_neg (fun heq : c = '\\' => h (heq ▸ hc))]

theorem resolvePath_abs_join (cwdS : List String) (s0 : String)
    (tl : List String)
    (hcwd : ∀ s ∈ cwdS, s ≠ "" ∧ '/' ∉ s.data ∧ s ≠ "." ∧ s ≠ "..")
    (hsegs : ∀ s ∈ s0 :: tl, s ≠ "" ∧ '/' ∉ s.data ∧ s ≠ "." ∧ s ≠ "..") :
    resolvePath (absString cwdS) (joinRel (s0 :: tl)) =
      absString (cwdS ++ (s0 :: tl)) := by
  obtain ⟨hs0, hslash, -, -⟩ := hsegs s0 (by simp)
  unfold resolvePath resolveSegs
  rw [if_neg (by rw [joinRel_startsWith_slash_false s0 tl hs0 hslash]; simp)]
  rw [segsOf_absString cwdS (fun s hs => ⟨(hcwd s hs).1, (hcwd s hs).2.1⟩),
    segsOf_joinRel _ (fun s hs => ⟨(hsegs s hs).1, (hsegs s hs).2.1⟩),
    normSegs_append_plain cwdS (s0 :: tl)
      (fun s hs => ⟨(hsegs s hs).2.2.1, (hsegs s hs).2.2.2⟩),
    normSegs_plain cwdS
      (fun s hs => ⟨(hcwd s hs).2.2.1, (hcwd s hs).2.2.2⟩)]

theorem relativePath_abs_join (cwdS segs : List String)
    (hcwd : ∀ s ∈ cwdS, s ≠ "" ∧ '/' ∉ s.data ∧ s ≠ "." ∧ s ≠ "..")
    (hsegs : ∀ s ∈ segs, s ≠ "" ∧ '/' ∉ s.data ∧ s ≠ "." ∧ s ≠ "..") :
    relativePath (absString cwdS) (absString (cwdS ++ segs)) =
      joinRel segs := by
  have happ : ∀ s ∈ cwdS ++ segs, s ≠ "" ∧ '/' ∉ s.data := by
    intro s hs
    rcases List.mem_append.mp hs with h | h
    · exact ⟨(hcwd s h).1, (hcwd s h).2.1⟩
    · exact ⟨(hsegs s h).1, (hsegs s h).2.1⟩
  unfold relativePath
  rw [segsOf_absString cwdS (fun s hs => ⟨(hcwd s hs).1, (hcwd s hs).2.1⟩),
    segsOf_absString (cwdS ++ segs) happ,
    normSegs_plain cwdS
      (fun s hs => ⟨(hcwd s hs).2.2.1, (hcwd s hs).2.2.2⟩),
    normSegs_plain (cwdS ++ segs) (by
      intro s hs
      rcases List.mem_append.mp hs with h | h
      · exact ⟨(hcwd s h).2.2.1, (hcwd s h).2.2.2⟩
      · exact ⟨(hsegs s h).2.2.1, (hsegs s h).2.2.2⟩)]
  simp only [relativeSegs, stripCommon_self_append]
  simp

/-! ## C9: the synthetic self-hiding rule -/

theorem contribOf_head (fs : FS) (cwd : String) :
    ∀ files : List String, contribOf fs cwd files = [] ∨
      ∃ f ct2 rest2, contribOf fs cwd files =
        fromComment cwd f :: ct2 :: rest2 := by
  intro files
  induction files with
  | nil => exact Or.inl rfl
  | cons f rest ih =>
    cases hread : fs.read f with
    | ok ct =>
      by_cases hct : jsTrim ct ≠ ""
      · exact Or.inr ⟨f, ct, contribOf fs cwd rest,
          by simp [contribOf, hread, hct]⟩
      · have : contribOf fs cwd (f :: rest) = contribOf fs cwd rest := by
          simp [contribOf, hread, hct]
        rw [this]; exact ih
    | error e =>
      have : contribOf fs cwd (f :: rest) = contribOf fs cwd rest := by
        simp [contribOf, hread]
      rw [this]; exact ih

theorem fromComment_data (cwd f : String) :
    ∃ t, (fromComment cwd f).data = '#' :: t := by
  refine ⟨(" From: ".data ++ (relativePath cwd f).data), ?_⟩
  show (("# From: " : String) ++ relativePath cwd f).data = _
  rw [strData_append, show ("# From: " : String).data =
    '#' :: (" From: " : String).data from rfl]
  rfl

theorem joinNL_contrib_ne_empty (fs : FS) (cwd : String)
    (files : List String) (h : contribOf fs cwd files ≠ []) :
    joinNL (contribOf fs cwd files) ≠ "" := by
  rcases contribOf_head fs cwd files with hnil | ⟨f, ct2, rest2, heq⟩
  · exact absurd hnil h
  · rw [heq]
    obtain ⟨t, ht⟩ := fromComment_data cwd f
    rw [show joinNL (fromComment cwd f :: ct2 :: rest2) =
      fromComment cwd f ++ "\n" ++ joinNL (ct2 :: rest2) from rfl]
    rw [ne_eq, str_eq_empty_iff, strData_append, strData_append, ht]
    simp

/-- State of the controller after a load that produced non-empty combined
content: the patterns are exactly the content lines followed by the
synthetic `**/.kilocodeignore` rule, the workspace root is unchanged, and
the content is non-empty (so restrictions are active under JS truthiness). -/
theorem load_state_of_content_some (fs : FS) (c : Controller) (ct : String)
    (h : (loadRooIgnore fs c).1.rooIgnoreContent = some ct) :
    (loadRooIgnore fs c).1.patterns = splitNL ct ++ ["**/.kilocodeignore"] ∧
    (loadRooIgnore fs c).1.cwd = c.cwd ∧ ct ≠ "" := by
  cases hu : fs.unexpected with
  | some e => rw [show loadRooIgnore fs c =
      ({ c with rooIgnoreContent := none, patterns := [] },
        [LogMsg.error ("Unexpected error loading .kilocodeignore files: "
          ++ e)]) from by simp only [loadRooIgnore, hu]] at h
              cases h
  | none =>
    by_cases hfiles : findKilocodeIgnoreFiles fs c.cwd = []
    · rw [show loadRooIgnore fs c =
        ({ c with rooIgnoreContent := none, patterns := [] }, []) from by
          simp only [loadRooIgnore, hu]; rw [if_pos hfiles]] at h
      cases h
    · by_cases hcon :
          contribOf fs c.cwd (findKilocodeIgnoreFiles fs c.cwd) = []
      · rw [show loadRooIgnore fs c =
          ({ c with rooIgnoreContent := none, patterns := [] },
            warnsOf fs (findKilocodeIgnoreFiles fs c.cwd)) from by
            simp only [loadRooIgnore, hu]
            rw [if_neg hfiles, loadLoop_eq, List.nil_append]
            simp [hcon]] at h
        cases h
      · have hload : loadRooIgnore fs c =
            ({ c with
              rooIgnoreContent := some (joinNL (contribOf fs c.cwd
                (findKilocodeIgnoreFiles fs c.cwd))),
              patterns := addPatterns (addPatterns []
                (joinNL (contribOf fs c.cwd
                  (findKilocodeIgnoreFiles fs c.cwd)))) "**/.kilocodeignore" },
              warnsOf fs (findKilocodeIgnoreFiles fs c.cwd)) := by
          simp only [loadRooIgnore, hu]
          rw [if_neg hfiles, loadLoop_eq, List.nil_append]
          simp [hcon]
        rw [hload] at h
        simp only at h
        cases h
        rw [hload]
        refine ⟨?_, rfl, joinNL_contrib_ne_empty fs c.cwd _ hcon⟩
        show addPatterns (addPatterns [] _) "**/.kilocodeignore" = _
        unfold addPatterns
        rw [show (("**/.kilocodeignore" : String).data.splitOn '\n').map
          (fun cs => (⟨cs⟩ : String)) = ["**/.kilocodeignore"] from rfl]
        rw [List.nil_append]
        rfl

theorem relArg_selfhide (fs2 : FS) (c1 : Controller) (cwdS : List String)
    (s0 : String) (tl : List String)
    (hcwdEq : c1.cwd = absString cwdS)
    (hcwd : ∀ s ∈ cwdS, s ≠ "" ∧ '/' ∉ s.data ∧ s ≠ "." ∧ s ≠ "..")
    (hsegs : ∀ s ∈ s0 :: tl,
      s ≠ "" ∧ '/' ∉ s.data ∧ '\\' ∉ s.data ∧ s ≠ "." ∧ s ≠ "..")
    (hdrop : s0.data.dropWhile (fun ch => ch = '.') ≠ [])
    (hreal : fs2.realpath (resolvePath c1.cwd (joinRel (s0 :: tl))) = none) :
    relArg fs2 c1 (joinRel (s0 :: tl)) = joinRel (s0 :: tl) := by
  have hsegs4 : ∀ s ∈ s0 :: tl, s ≠ "" ∧ '/' ∉ s.data ∧ s ≠ "." ∧ s ≠ ".." :=
    fun s hs => ⟨(hsegs s hs).1, (hsegs s hs).2.1,
      (hsegs s hs).2.2.2.1, (hsegs s hs).2.2.2.2⟩
  have hres : resolvePath c1.cwd (joinRel (s0 :: tl)) =
      absString (cwdS ++ (s0 :: tl)) := by
    rw [hcwdEq]; exact resolvePath_abs_join cwdS s0 tl hcwd hsegs4
  have hrel2 : relativePath c1.cwd (absString (cwdS ++ (s0 :: tl))) =
      joinRel (s0 :: tl) := by
    rw [hcwdEq]; exact relativePath_abs_join cwdS (s0 :: tl) hcwd hsegs4
  have hnb : '\\' ∉ (joinRel (s0 :: tl)).data := by
    intro hmem
    rcases joinRel_data_mem _ _ hmem with h | ⟨s, hs, hin⟩
    · exact absurd h (by decide)
    · exact (hsegs s hs).2.2.1 hin
  obtain ⟨hs0, hslash, -⟩ := hsegs s0 (by simp)
  simp only [relArg]
  rw [hreal]
  simp only [Option.getD_none]
  rw [hres, hrel2, toPosix_eq_self _ hnb]
  rw [if_neg (by
    rw [joinRel_startsWith_dotdot_false s0 tl hslash hdrop,
      joinRel_startsWith_slash_false s0 tl hs0 hslash]
    simp)]

/-- Claim C9 (amended): after a load that produced non-empty combined
content, the synthetic `**/.kilocodeignore` rule sits after every user
pattern, so any plain relative path under the workspace root whose final
segment is the ignore-file name — provided its leading segment is not made
solely of dots (such paths trip the matcher's relative-path validation and
fail open), symlink resolution leaves it in place, and the matcher honours
the gitignore meaning of the trailing `**/` rule — is reported
inaccessible. -/
theorem claim9_selfhide_amended
    (m : GlobSemantics) (fs fs2 : FS) (c : Controller) (ct : String)
    (cwdS : List String) (s0 : String) (tl : List String)
    (hm : ∀ (pats : List String) (p : String),
      (segsOf p).getLast? = some ".kilocodeignore" →
      m (pats ++ ["**/.kilocodeignore"]) p = true)
    (hload : (loadRooIgnore fs c).1.rooIgnoreContent = some ct)
    (hcwdEq : c.cwd = absString cwdS)
    (hcwd : ∀ s ∈ cwdS, s ≠ "" ∧ '/' ∉ s.data ∧ s ≠ "." ∧ s ≠ "..")
    (hsegs : ∀ s ∈ s0 :: tl,
      s ≠ "" ∧ '/' ∉ s.data ∧ '\\' ∉ s.data ∧ s ≠ "." ∧ s ≠ "..")
    (hlast : (s0 :: tl).getLast? = some ".kilocodeignore")
    (hdrop : s0.data.dropWhile (fun ch => ch = '.') ≠ [])
    (hreal : fs2.realpath (resolvePath c.cwd (joinRel (s0 :: tl))) = none) :
    validateAccess m fs2 (loadRooIgnore fs c).1 (joinRel (s0 :: tl))
      = false := by
  obtain ⟨hpats, hcwd1, hct⟩ := load_state_of_content_some fs c ct hload
  have hcwdEq1 : (loadRooIgnore fs c).1.cwd = absString cwdS := by
    rw [hcwd1, hcwdEq]
  have hrelArg := relArg_selfhide fs2 (loadRooIgnore fs c).1 cwdS s0 tl
    hcwdEq1 hcwd hsegs hdrop (by rw [hcwd1]; exact hreal)
  have hne : joinRel (s0 :: tl) ≠ "" := by
    obtain ⟨r, hr, -⟩ := joinRel_cons_data_shape s0 tl
    rw [ne_eq, str_eq_empty_iff, hr]
    obtain ⟨hs0, -⟩ := hsegs s0 (by simp)
    simp only [List.append_eq_nil]
    intro happ
    exact hs0 ((str_eq_empty_iff s0).mpr happ.1)
  have hinv := testInvalidPath_joinRel_false s0 tl (hsegs s0 (by simp)).2.1
    hdrop
  have hmatch : m (splitNL ct ++ ["**/.kilocodeignore"])
      (joinRel (s0 :: tl)) = true := by
    apply hm
    rw [segsOf_joinRel _ (fun s hs => ⟨(hsegs s hs).1, (hsegs s hs).2.1⟩)]
    exact hlast
  have hok : ignoresE m (loadRooIgnore fs c).1.patterns
      (relArg fs2 (loadRooIgnore fs c).1 (joinRel (s0 :: tl))) =
      Except.ok true := by
    rw [hrelArg, hpats]
    unfold ignoresE
    rw [if_neg hne, if_neg (by rw [hinv]; exact Bool.false_ne_true), hmatch]
  unfold validateAccess
  rw [if_neg (by rw [hload]; simp [contentFalsy, hct]), hok]
  rfl

/-- Counterexample to C9 as stated: with restrictions active, the path
`.../.kilocodeignore` lies under the workspace root and its final segment is
the ignore-file name, yet `validateAccess` reports it accessible even for a
matcher that ignores every path: the `ignore` package rejects a relative
path whose leading segment is all dots (its invalid-path pattern
`/^\.*\/|^\.+$/` matches), the throw is swallowed, and the check fails
open.  The first conjunct shows the restrictions really are active. -/
theorem claim9_counterexample :
    (loadRooIgnore fsDemo cDemo0).1.rooIgnoreContent =
      some "# From: .kilocodeignore\nsecrets/**" ∧
    validateAccess (fun _ _ => true) fsDemo (loadRooIgnore fsDemo cDemo0).1
      ".../.kilocodeignore" = true := by
  decide

/-- A concrete instance of the matcher semantics honouring the synthetic
rule: a path is ignored iff its final segment is the ignore-file name. -/
def mSelf : GlobSemantics := fun _ p =>
  (segsOf p).getLast? == some ".kilocodeignore"

/-- Witness for the amended C9 at a concrete nested ignore-file path. -/
theorem claim9_witness :
    validateAccess mSelf fsDemo (loadRooIgnore fsDemo cDemo0).1
      (joinRel ["sub", ".kilocodeignore"]) = false :=
  claim9_selfhide_amended mSelf fsDemo fsDemo cDemo0
    "# From: .kilocodeignore\nsecrets/**" ["w"] "sub" [".kilocodeignore"]
    (fun pats p h => by simp [mSelf, h])
    (by decide) (by decide) (by decide) (by decide) (by decide) (by decide)
    rfl

/-- Witness for C10 at a concrete blocked command. -/
theorem claim10_witness :
    "secrets/keys.json" ∈ splitWS "cat secrets/keys.json" ∧
    strStartsWith "secrets/keys.json" "-" = false ∧
    strStartsWith "secrets/keys.json" "/" = false ∧
    strContainsChar "secrets/keys.json" ':' = false ∧
    validateAccess mDemo fsDemo cDemo "secrets/keys.json" = false :=
  claim10_blocked_token_provenance mDemo fsDemo cDemo
    "cat secrets/keys.json" "secrets/keys.json" (by decide)

end RooIgnore
